import Mathlib

/-!
Verification of the project-dumper repository against its specification.

The repository has two entry points sharing the same logic:
  - src/main.py                      (the flat single-file version)
  - src/src/project_dumper/*.py      (the modularized package version)

This file shallowly embeds the pure content of both:
  - the filesystem is an inductive tree of named files (with stat/read
    results made explicit as Option values: none models an OSError) and
    named directories;
  - Python str values are Lean String values (for line-oriented text we
    use List Char, the code-point sequence, which is exactly how Python
    compares and slices str);
  - the external pathspec library is modeled by its interface: a value
    with a match_file function, and the PathSpec.from_lines constructor
    is a parameter wherever it matters;
  - Python sorted is modeled by List.insertionSort (a stable sort, as
    Python guarantees).

Definitions are translated from the Python source; definitions whose name
starts with spec are transcriptions of the specification text, used to
compare the two.
-/

/-- Result of os.stat and of opening+reading a file, for one file on disk.
A none models an OSError (the file is unreadable / not statable);
content is the byte sequence of the file. -/
structure FileAttrs where
  statSize : Option Nat
  content : Option (List Nat)
deriving DecidableEq, Repr

mutual
/-- A filesystem entry: a file with its name and attributes, or a
directory with its name and children (in directory-listing order). -/
inductive FSEntry where
  | file : String → FileAttrs → FSEntry
  | dir : String → FSEntries → FSEntry
deriving Repr

/-- A directory listing, in the order os.walk and iterdir see it. -/
inductive FSEntries where
  | nil : FSEntries
  | cons : FSEntry → FSEntries → FSEntries
deriving Repr
end

/-- A file yielded by the walk: its directory components relative to the
root, its basename, and the attributes of the node it came from.
The Python code yields a Path; the record keeps the data of that path. -/
structure FileRecord where
  dirs : List String
  name : String
  attrs : FileAttrs
deriving DecidableEq, Repr

/-- Joining of relative-path components, as str(path.relative_to(root))
renders them on a posix filesystem. -/
def joinPath (parts : List String) : String :=
  String.intercalate "/" parts

/-- The relative-path string of a yielded file. -/
def relString (r : FileRecord) : String :=
  joinPath (r.dirs ++ [r.name])

/-- Python pathlib suffix of a basename: the part from the last dot on,
provided that dot is neither the first nor the last character; empty
string otherwise (translated from pathlib PurePath.suffix). -/
def pySuffix (name : String) : String :=
  let cs := name.data
  match cs.reverse.findIdx? (fun c => c == '.') with
  | none => ""
  | some j => if 1 ≤ j ∧ j ≤ cs.length - 2 then
      String.mk (cs.drop (cs.length - 1 - j)) else ""

/-- Python str.lower restricted to ASCII letters (file extensions in this
program are ASCII). -/
def pyLower (s : String) : String :=
  String.mk (s.data.map Char.toLower)

/-- Translated from is_probably_binary (files.py lines 11-23 and main.py
lines 130-142): read up to sampleSize bytes; binary iff the sample holds
a NUL byte; an unreadable file (content = none, the OSError branch) is
classified binary. -/
def isProbablyBinary (content : Option (List Nat)) (sampleSize : Nat := 8000) : Bool :=
  match content with
  | none => true
  | some bs => (bs.take sampleSize).contains 0

/-- Interface of a pathspec.PathSpec object: only its match_file method
is used by the repository. -/
structure PathSpec where
  matchFile : String → Bool

/-- Translated from matches_gitignore (gitignore.py lines 27-35): false
when the spec is absent, else match_file on the relative path string. -/
def matchesGitignore (spec : Option PathSpec) (rel : String) : Bool :=
  match spec with
  | none => false
  | some s => s.matchFile rel

/-- State of the .gitignore file at the root: none when the file is
missing, some none when reading it raises OSError, some (some lines)
when it is readable with those lines. -/
def GitignoreSrc : Type := Option (Option (List String))

/-- Translated from load_gitignore (gitignore.py lines 9-24): none when
the file is missing, none when reading raises OSError, otherwise
PathSpec.from_lines on the lines; from_lines belongs to the external
pathspec library and is passed as a parameter. -/
def loadGitignore (fromLines : List String → PathSpec) (g : GitignoreSrc) :
    Option PathSpec :=
  match g with
  | none => none
  | some none => none
  | some (some lines) => some (fromLines lines)

/-- The per-run selection configuration assembled in cli.py main / main.py
main: extension allow-list (none when --include-ext is omitted), extension
deny-list, excluded directory names, and the --max-bytes ceiling. -/
structure SelectionConfig where
  includeExts : Option (List String)
  excludeExts : List String
  excludeDirs : List String
  maxBytes : Nat
deriving DecidableEq, Repr

/-- Which continue statement of the file loop rejected a file; sizeCheck
covers both the OSError branch of stat and the size comparison, matching
step (c) of the specification. -/
inductive RejectStep where
  | allowList
  | denyList
  | sizeCheck
  | binaryCheck
  | ignoreRule
  | ignoreFileIdentity
deriving DecidableEq, Repr

/-- The file filter of the modularized selector, translated continue by
continue from iter_files (files.py lines 45-72); returns the step that
rejected the file, or none when the file is yielded. -/
def fileFilterMod (cfg : SelectionConfig) (spec : Option PathSpec)
    (rel : String) (name : String) (a : FileAttrs) : Option RejectStep :=
  let ext := pyLower (pySuffix name)
  if (match cfg.includeExts with
      | some allow => !(allow.contains ext)
      | none => false) then some .allowList
  else if cfg.excludeExts.contains ext then some .denyList
  else
    match a.statSize with
    | none => some .sizeCheck
    | some size =>
      if size > cfg.maxBytes then some .sizeCheck
      else if isProbablyBinary a.content then some .binaryCheck
      else if matchesGitignore spec rel then some .ignoreRule
      else if name == ".gitignore" then some .ignoreFileIdentity
      else none

/-- The file filter of the flat entry point, translated continue by
continue from iter_files (main.py lines 190-213); it has no ignore-rule
step and no identity step. -/
def fileFilterFlat (cfg : SelectionConfig) (name : String) (a : FileAttrs) :
    Option RejectStep :=
  let ext := pyLower (pySuffix name)
  if (match cfg.includeExts with
      | some allow => !(allow.contains ext)
      | none => false) then some .allowList
  else if cfg.excludeExts.contains ext then some .denyList
  else
    match a.statSize with
    | none => some .sizeCheck
    | some size =>
      if size > cfg.maxBytes then some .sizeCheck
      else if isProbablyBinary a.content then some .binaryCheck
      else none

/-- Pruning condition of the modularized walk (files.py lines 38-44): a
child directory is kept in dirnames iff its path does not match the
ignore rules and its name is not in the excluded set. -/
def keepDirMod (cfg : SelectionConfig) (spec : Option PathSpec)
    (base : List String) (d : String) : Bool :=
  !(matchesGitignore spec (joinPath (base ++ [d]))) && !(cfg.excludeDirs.contains d)

/-- Pruning condition of the flat walk (main.py lines 186-188): only the
excluded-directory-name set is consulted. -/
def keepDirFlat (cfg : SelectionConfig) (d : String) : Bool :=
  !(cfg.excludeDirs.contains d)

/-- The files part of one os.walk step of the modularized selector: the
file children of the directory at base, in listing order, kept iff the
file filter accepts them. -/
def filesPassMod (cfg : SelectionConfig) (spec : Option PathSpec)
    (base : List String) : FSEntries → List FileRecord
  | .nil => []
  | .cons (.file n a) rest =>
      (if fileFilterMod cfg spec (joinPath (base ++ [n])) n a = none
       then [⟨base, n, a⟩] else []) ++ filesPassMod cfg spec base rest
  | .cons (.dir _ _) rest => filesPassMod cfg spec base rest

/-- The descent part of one os.walk step of the modularized selector:
recurse, in listing order, into exactly the kept child directories; each
visited directory contributes its files first, then its own descents
(the top-down order of os.walk). -/
def dirsPassMod (cfg : SelectionConfig) (spec : Option PathSpec)
    (base : List String) : FSEntries → List FileRecord
  | .nil => []
  | .cons (.file _ _) rest => dirsPassMod cfg spec base rest
  | .cons (.dir d cs) rest =>
      (if keepDirMod cfg spec base d then
        filesPassMod cfg spec (base ++ [d]) cs ++ dirsPassMod cfg spec (base ++ [d]) cs
       else []) ++ dirsPassMod cfg spec base rest

/-- Translated from iter_files of the modularized package (files.py lines
25-72): walk from the root children, yielding the files that pass every
filter, never descending into pruned directories. -/
def iterFilesMod (cfg : SelectionConfig) (spec : Option PathSpec)
    (rootChildren : FSEntries) : List FileRecord :=
  filesPassMod cfg spec [] rootChildren ++ dirsPassMod cfg spec [] rootChildren

/-- The files part of one os.walk step of the flat selector. -/
def filesPassFlat (cfg : SelectionConfig) (base : List String) :
    FSEntries → List FileRecord
  | .nil => []
  | .cons (.file n a) rest =>
      (if fileFilterFlat cfg n a = none then [⟨base, n, a⟩] else [])
        ++ filesPassFlat cfg base rest
  | .cons (.dir _ _) rest => filesPassFlat cfg base rest

/-- The descent part of one os.walk step of the flat selector. -/
def dirsPassFlat (cfg : SelectionConfig) (base : List String) :
    FSEntries → List FileRecord
  | .nil => []
  | .cons (.file _ _) rest => dirsPassFlat cfg base rest
  | .cons (.dir d cs) rest =>
      (if keepDirFlat cfg d then
        filesPassFlat cfg (base ++ [d]) cs ++ dirsPassFlat cfg (base ++ [d]) cs
       else []) ++ dirsPassFlat cfg base rest

/-- Translated from iter_files of the flat entry point (main.py lines
174-213). -/
def iterFilesFlat (cfg : SelectionConfig) (rootChildren : FSEntries) :
    List FileRecord :=
  filesPassFlat cfg [] rootChildren ++ dirsPassFlat cfg [] rootChildren

/-- The directories the modularized walk descends into below base (the
dirpath values os.walk would report after the in-place pruning), as
component lists relative to the root. -/
def visitedDirsMod (cfg : SelectionConfig) (spec : Option PathSpec)
    (base : List String) : FSEntries → List (List String)
  | .nil => []
  | .cons (.file _ _) rest => visitedDirsMod cfg spec base rest
  | .cons (.dir d cs) rest =>
      (if keepDirMod cfg spec base d then
        (base ++ [d]) :: visitedDirsMod cfg spec (base ++ [d]) cs
       else []) ++ visitedDirsMod cfg spec base rest

/-- All directories the modularized run visits: the root (always visited)
followed by every directory descended into. -/
def walkVisitedMod (cfg : SelectionConfig) (spec : Option PathSpec)
    (rootChildren : FSEntries) : List (List String) :=
  [] :: visitedDirsMod cfg spec [] rootChildren

/-! ## Specification-side filter checks (claim C1)

Each check below transcribes one item of the specification sentence
listing the filter order; passing is true. specFirstFail applies them in
the order (a) to (f) of the claim and reports the first failing one. -/

/-- Check (a) of the claim: if an extension allow-list is configured, the
lowercased suffix must be a member. -/
def specCheckAllow (cfg : SelectionConfig) (ext : String) : Bool :=
  match cfg.includeExts with
  | none => true
  | some allow => allow.contains ext

/-- Check (b): the suffix must not be in the deny-list. -/
def specCheckDeny (cfg : SelectionConfig) (ext : String) : Bool :=
  !(cfg.excludeExts.contains ext)

/-- Check (c): stat must succeed and the size must not exceed the
configured maximum. -/
def specCheckSize (cfg : SelectionConfig) (a : FileAttrs) : Bool :=
  match a.statSize with
  | none => false
  | some s => decide (s ≤ cfg.maxBytes)

/-- Check (d): the file must not be classified binary. -/
def specCheckText (a : FileAttrs) : Bool :=
  !(isProbablyBinary a.content)

/-- Check (e): the path must not match the ignore rules. -/
def specCheckIgnore (spec : Option PathSpec) (rel : String) : Bool :=
  !(matchesGitignore spec rel)

/-- Check (f): the file must not be the ignore-pattern file itself (the
identity check of the specification, which the code performs on the
basename). -/
def specCheckIdentity (name : String) : Bool :=
  !(name == ".gitignore")

/-- The first failing check, in the order (a) to (f) stated by the claim,
short-circuiting on the first failure; none when all checks pass. -/
def specFirstFail (cfg : SelectionConfig) (spec : Option PathSpec)
    (rel : String) (name : String) (a : FileAttrs) : Option RejectStep :=
  let ext := pyLower (pySuffix name)
  if !(specCheckAllow cfg ext) then some .allowList
  else if !(specCheckDeny cfg ext) then some .denyList
  else if !(specCheckSize cfg a) then some .sizeCheck
  else if !(specCheckText a) then some .binaryCheck
  else if !(specCheckIgnore spec rel) then some .ignoreRule
  else if !(specCheckIdentity name) then some .ignoreFileIdentity
  else none

/-- Membership of a file entry with a given name and attributes in a
directory listing. -/
def hasFileEntry (n : String) (a : FileAttrs) : FSEntries → Bool
  | .nil => false
  | .cons (.file n2 a2) rest =>
      (decide (n2 = n) && decide (a2 = a)) || hasFileEntry n a rest
  | .cons (.dir _ _) rest => hasFileEntry n a rest

/-- The chain of pruning decisions along a directory path: every
component, in order, passes the keep condition of the walk at its level.
A directory is descended into exactly when its whole chain passes. -/
def chainOk (cfg : SelectionConfig) (spec : Option PathSpec) :
    List String → List String → Bool
  | _, [] => true
  | base, d :: ds => keepDirMod cfg spec base d && chainOk cfg spec (base ++ [d]) ds

/-- Order on relative-path strings: Python compares str values by code
points, which is the lexicographic order on their character lists. -/
def strLe (x y : String) : Prop :=
  x.data ≤ y.data

instance : DecidableRel strLe :=
  fun x y => inferInstanceAs (Decidable (x.data ≤ y.data))

instance : IsTotal String strLe :=
  ⟨fun x y => le_total x.data y.data⟩

instance : IsTrans String strLe :=
  ⟨fun _ _ _ h1 h2 => le_trans h1 h2⟩

instance : IsAntisymm String strLe :=
  ⟨fun x y h1 h2 => by
    cases x; cases y
    exact congrArg String.mk (le_antisymm h1 h2)⟩

/-- The sort key of the main functions (cli.py line 118, main.py line 294):
the relative-path string of each yielded file. -/
def fileLe (x y : FileRecord) : Prop :=
  strLe (relString x) (relString y)

instance : DecidableRel fileLe :=
  fun x y => inferInstanceAs (Decidable (strLe (relString x) (relString y)))

instance : IsTotal FileRecord fileLe :=
  ⟨fun x y => total_of strLe (relString x) (relString y)⟩

instance : IsTrans FileRecord fileLe :=
  ⟨fun _ _ _ h1 h2 => trans_of strLe h1 h2⟩

/-- Translated from files = sorted(iter_files(...), key=...) in cli.py
lines 109-118 and main.py lines 289-295; Python sorted is a stable sort,
modeled by insertion sort. -/
def sortFiles (l : List FileRecord) : List FileRecord :=
  List.insertionSort fileLe l

/-- The manifest block (cli.py lines 136-139, main.py lines 307-310): one
line per selected file, its relative path, in sorted order. -/
def manifestLines (files : List FileRecord) : List String :=
  files.map relString

/-- The delimiter lines of the per-file content blocks (cli.py line 146,
main.py line 317), in the order the blocks are emitted. -/
def contentDelimLines (files : List FileRecord) : List String :=
  files.map (fun f => "==== FILE: " ++ relString f ++ " ====")

/-- The sorted file list a run of the modularized entry point works with. -/
def mainSelectedFiles (cfg : SelectionConfig) (spec : Option PathSpec)
    (rootChildren : FSEntries) : List FileRecord :=
  sortFiles (iterFilesMod cfg spec rootChildren)

/-! ## Python call binding (claim C5)

The modularized entry point calls format_header with a keyword argument.
Binding a Python call to a function signature is modeled just far enough
to evaluate that call: CPython raises TypeError for a keyword argument
that names no parameter. -/

/-- The parameter names of format_header (header.py lines 8-13). -/
def formatHeaderParamNames : List String :=
  ["root", "include_exts", "exclude_dirs", "exclude_exts"]

/-- Shape of a Python call site: how many positional arguments it passes
and which keyword names it uses. -/
structure PyCallArgs where
  positional : Nat
  keywords : List String
deriving DecidableEq, Repr

/-- The call format_header(root, include_exts, exclude_dirs, exclude_exts,
gitignore_used=False) at cli.py line 121. -/
def cliHeaderCall : PyCallArgs :=
  ⟨4, ["gitignore_used"]⟩

/-- The TypeError cases of CPython argument binding that can arise here. -/
inductive PyBindError where
  | tooManyPositional
  | unexpectedKeyword (kw : String)
  | multipleValues (kw : String)
deriving DecidableEq, Repr

/-- CPython binding of a call to a signature without defaults, varargs or
keyword-only markers: positional arguments fill the first parameters, a
keyword naming no parameter raises TypeError, a keyword naming an already
filled parameter raises TypeError. -/
def bindPyArgs (params : List String) (c : PyCallArgs) : Except PyBindError Unit :=
  if params.length < c.positional then .error .tooManyPositional
  else
    match c.keywords.find? (fun k => !(params.contains k)) with
    | some k => .error (.unexpectedKeyword k)
    | none =>
      match c.keywords.find? (fun k => (params.take c.positional).contains k) with
      | some k => .error (.multipleValues k)
      | none => .ok ()

/-! ## Concrete fixtures used by witnesses and examples -/

/-- A selection configuration with no allow-list, empty deny-list, no
excluded directories and the default 2,000,000 byte ceiling. -/
def cfgPlain : SelectionConfig :=
  ⟨none, [], [], 2000000⟩

/-- The cfgPlain configuration with the ceiling lowered to 10 bytes. -/
def cfgMax10 : SelectionConfig :=
  ⟨none, [], [], 10⟩

/-- The cfgPlain configuration with the ceiling lowered to 11 bytes. -/
def cfgMax11 : SelectionConfig :=
  ⟨none, [], [], 11⟩

/-- Attributes of an 11-byte text file holding the bytes of the string
hello world. -/
def attrs11 : FileAttrs :=
  ⟨some 11, some [104, 101, 108, 108, 111, 32, 119, 111, 114, 108, 100]⟩

/-- A root listing holding one 11-byte text file named a.txt. -/
def tree11 : FSEntries :=
  .cons (.file "a.txt" attrs11) .nil

/-- Attributes of a small readable text file (bytes of the string hi). -/
def attrsHi : FileAttrs :=
  ⟨some 2, some [104, 105]⟩

/-- A root listing with a file named .gitignore at the root and another
one inside a subdirectory named sub. -/
def treeGitignore : FSEntries :=
  .cons (.file ".gitignore" attrsHi)
    (.cons (.dir "sub" (.cons (.file ".gitignore" attrsHi) .nil)) .nil)

/-- A root listing with two root files named b.txt and a.txt, listed in
that (unsorted) order. -/
def treeTwoFiles : FSEntries :=
  .cons (.file "b.txt" attrsHi) (.cons (.file "a.txt" attrsHi) .nil)

/-- The record of a.txt in treeTwoFiles. -/
def recA : FileRecord := ⟨[], "a.txt", attrsHi⟩

/-- The record of b.txt in treeTwoFiles. -/
def recB : FileRecord := ⟨[], "b.txt", attrsHi⟩

/-! ## Tree renderer (claim C9), translated from tree.py / main.py
build_dir_tree -/

/-- Python Path.is_file for a tree entry. -/
def entryIsFile : FSEntry → Bool
  | .file _ _ => true
  | .dir _ _ => false

/-- The basename of a tree entry. -/
def entryName : FSEntry → String
  | .file n _ => n
  | .dir n _ => n

/-- A directory listing as a plain list, in the same order. -/
def FSEntries.toList : FSEntries → List FSEntry
  | .nil => []
  | .cons e rest => e :: rest.toList

/-- The sort key of build_dir_tree: the Python tuple
(p.is_file(), p.name.lower()) under tuple comparison, so directories
(is_file false) come before files, and inside a group the lowercased
names are compared as code-point sequences. -/
def treeKeyLe (x y : FSEntry) : Prop :=
  (entryIsFile x = false ∧ entryIsFile y = true) ∨
    (entryIsFile x = entryIsFile y ∧
      (pyLower (entryName x)).data ≤ (pyLower (entryName y)).data)

instance : DecidableRel treeKeyLe :=
  fun x y => inferInstanceAs (Decidable (_ ∨ _))

instance : IsTotal FSEntry treeKeyLe :=
  ⟨fun x y => by
    unfold treeKeyLe
    cases hx : entryIsFile x <;> cases hy : entryIsFile y <;> simp [hx, hy] <;>
      exact le_total _ _⟩

instance : IsTrans FSEntry treeKeyLe :=
  ⟨fun x y z hxy hyz => by
    unfold treeKeyLe at *
    rcases hxy with ⟨hx, hy⟩ | ⟨hxy, hle1⟩ <;>
      rcases hyz with ⟨hy2, hz⟩ | ⟨hyz2, hle2⟩
    · rw [hy] at hy2; exact Bool.noConfusion hy2
    · exact Or.inl ⟨hx, hyz2 ▸ hy⟩
    · exact Or.inl ⟨hxy.trans hy2, hz⟩
    · exact Or.inr ⟨hxy.trans hyz2, le_trans hle1 hle2⟩⟩

/-- Translated from entries = sorted(dir_path.iterdir(), key=...) in
tree.py lines 20-23 and main.py lines 157-160. -/
def sortEntries (l : List FSEntry) : List FSEntry :=
  List.insertionSort treeKeyLe l

/-- The connector-style walk of build_dir_tree (tree.py lines 25-32,
main.py lines 162-169): one line per entry, then, when the entry is a
directory whose name is not excluded, the lines of its sorted children
under an extended prefix. Only the excluded-directory-name set is
consulted; no ignore rules and none of the file-selection filters. -/
def treeWalk (excl : List String) (pfx : String) (entries : List FSEntry) :
    List String :=
  match entries with
  | [] => []
  | e :: rest =>
      let isLast := rest.isEmpty
      let line := pfx ++ (if isLast then "└── " else "├── ") ++ entryName e
      let sub :=
        match e with
        | .file _ _ => []
        | .dir n cs =>
            if !(excl.contains n) then
              treeWalk excl (pfx ++ (if isLast then "    " else "│   "))
                (sortEntries cs.toList)
            else []
      line :: (sub ++ treeWalk excl pfx rest)
termination_by sizeOf entries
decreasing_by
all_goals
  have hsum : ∀ (l1 l2 : List FSEntry), l1.Perm l2 → sizeOf l1 = sizeOf l2 := by
    intro l1 l2 hp
    induction hp with
    | nil => rfl
    | cons a _ ih => simp [ih]
    | swap a b l => simp; omega
    | trans _ _ ih1 ih2 => omega
  have htl : ∀ (l : FSEntries), sizeOf (FSEntries.toList l) = sizeOf l := by
    intro l
    induction l using FSEntries.toList.induct with
    | case1 => simp [FSEntries.toList]
    | case2 e2 rest2 ih => simp [FSEntries.toList, ih]
all_goals simp_wf
all_goals rename_i n2 cs2 hc2
all_goals rw [hsum (sortEntries (FSEntries.toList cs2)) (FSEntries.toList cs2)
      (List.perm_insertionSort treeKeyLe (FSEntries.toList cs2)), htl cs2]
all_goals omega

/-- Translated from build_dir_tree (tree.py lines 7-34, main.py lines
145-171): the resolved root basename as the first line, then the walk
over the sorted root children. -/
def buildDirTree (rootName : String) (excl : List String)
    (rootChildren : FSEntries) : List String :=
  rootName :: treeWalk excl "" (sortEntries rootChildren.toList)

/-- Attributes of a 4-byte file starting with a NUL byte (binary). -/
def attrsBin : FileAttrs :=
  ⟨some 4, some [0, 1, 2, 3]⟩

/-- A root listing holding one binary file named b.bin. -/
def treeBinOnly : FSEntries :=
  .cons (.file "b.bin" attrsBin) .nil

/-- A root listing holding one directory named node_modules with one text
file x.txt inside it. -/
def treeVendor : FSEntries :=
  .cons (.dir "node_modules" (.cons (.file "x.txt" attrsHi) .nil)) .nil

/-! ## Line numbering (claim C8), translated from add_line_numbers
(files.py lines 83-92, main.py lines 267-271)

Text is modeled as its code-point sequence (List Char), which is how
Python str behaves under splitlines, rjust, len and concatenation. -/

/-- The line boundaries of Python str.splitlines. -/
def pyIsLineBound (c : Char) : Bool :=
  c == '\n' || c == '\r' || c == '\x0b' || c == '\x0c' || c == '\x1c' ||
    c == '\x1d' || c == '\x1e' || c == '\x85' || c == '\u2028' || c == '\u2029'

/-- Worker of splitlines: acc holds the reversed current line; a
boundary character ends the line, and a line-feed directly after a
carriage return (afterCR) is consumed silently so the pair counts as one
boundary; at the end of the text a nonempty pending line is emitted, a
trailing boundary adds no empty line. -/
def splitlinesGo (afterCR : Bool) (acc : List Char) : List Char → List (List Char)
  | [] => if acc.isEmpty then [] else [acc.reverse]
  | c :: rest =>
      if afterCR = true ∧ c = '\n' then splitlinesGo false acc rest
      else if pyIsLineBound c then
        acc.reverse :: splitlinesGo (decide (c = '\r')) [] rest
      else splitlinesGo false (c :: acc) rest

/-- Python str.splitlines on a code-point sequence. -/
def pySplitlines (cs : List Char) : List (List Char) :=
  splitlinesGo false [] cs

/-- The ten decimal digit characters. -/
def decimalDigits : List Char :=
  ['0', '1', '2', '3', '4', '5', '6', '7', '8', '9']

/-- The digit character of a value below ten. -/
def digitChar (k : Nat) : Char :=
  decimalDigits.getD k '0'

/-- Fuel-driven decimal rendering worker; the fuel is always sufficient
when called through pyNatStr. -/
def natDigitsGo : Nat → Nat → List Char
  | 0, _ => []
  | fuel + 1, n =>
      if n < 10 then [digitChar n]
      else natDigitsGo fuel (n / 10) ++ [digitChar (n % 10)]

/-- Python str(i) for a natural number: its decimal digits. -/
def pyNatStr (n : Nat) : List Char :=
  natDigitsGo (n + 1) n

/-- Python str.rjust with the space fill character: pad on the left up to
the requested width, return the string unchanged when already wide
enough. -/
def pyRjust (s : List Char) (w : Nat) : List Char :=
  List.replicate (w - s.length) ' ' ++ s

/-- Translated from add_line_numbers: split the text into lines, compute
the width of str(start + len(lines) - 1), and join with newlines the
lines prefixed by the right-justified number and the separator. -/
def addLineNumbers (text : List Char) (start : Nat := 1) : List Char :=
  let lines := pySplitlines text
  let width := (pyNatStr (start + lines.length - 1)).length
  List.intercalate ['\n']
    ((List.enumFrom start lines).map
      (fun p => pyRjust (pyNatStr p.1) width ++ [' ', '|', ' '] ++ p.2))

/-- Splitting on the line-feed character, the inverse of joining with a
line-feed (spec side, used to state the recovery property). -/
def splitNl : List Char → List (List Char)
  | [] => [[]]
  | c :: rest =>
      if c = '\n' then [] :: splitNl rest
      else
        match splitNl rest with
        | [] => [[c]]
        | l :: ls => (c :: l) :: ls

/-- Stripping the number prefix of one numbered line: drop everything up
to the first vertical bar, then the bar and the following space (spec
side). -/
def stripNumTag (l : List Char) : List Char :=
  (l.dropWhile (fun c => !(c == '|'))).drop 2

/-- Stripping all number prefixes of a numbered text (spec side): the
claim asserts this recovers the original text. -/
def stripAllNumTags (out : List Char) : List Char :=
  List.intercalate ['\n'] ((splitNl out).map stripNumTag)

theorem fileFilterMod_eq_specFirstFail (cfg : SelectionConfig)
    (spec : Option PathSpec) (rel : String) (name : String) (a : FileAttrs) :
    fileFilterMod cfg spec rel name a = specFirstFail cfg spec rel name a := by
  unfold fileFilterMod specFirstFail specCheckAllow specCheckDeny
    specCheckSize specCheckText specCheckIgnore specCheckIdentity
  cases h : cfg.includeExts <;> cases h2 : a.statSize <;>
    simp <;> split_ifs <;> simp_all

theorem mem_filesPassMod (cfg : SelectionConfig) (spec : Option PathSpec)
    (base : List String) (cs : FSEntries) (n : String) (a : FileAttrs) :
    (⟨base, n, a⟩ : FileRecord) ∈ filesPassMod cfg spec base cs ↔
      hasFileEntry n a cs = true ∧
        fileFilterMod cfg spec (joinPath (base ++ [n])) n a = none := by
  induction cs using filesPassMod.induct cfg spec base with
  | case1 => simp [filesPassMod, hasFileEntry]
  | case2 n2 a2 rest ih =>
      simp only [filesPassMod, hasFileEntry, List.mem_append, ih,
        Bool.or_eq_true, Bool.and_eq_true, decide_eq_true_eq]
      constructor
      · rintro (h | ⟨hm, hf⟩)
        · split at h <;> simp_all [FileRecord.mk.injEq]
        · exact ⟨Or.inr hm, hf⟩
      · rintro ⟨⟨hn, ha⟩ | hm, hf⟩
        · subst hn; subst ha
          left; simp [hf]
        · right; exact ⟨hm, hf⟩
  | case3 d cs2 rest ih =>
      simpa [filesPassMod, hasFileEntry] using ih

/-- Claim C1: for every file in a visited directory, the modularized
selector applies the filters in exactly the order (a) allow-list, (b)
deny-list, (c) stat/size, (d) binary, (e) ignore rules, (f) ignore-file
identity, short-circuiting on the first failing check (the rejecting
continue of the code is the first failing check of the specification),
and a file of a visited directory passing all checks is yielded. -/
theorem claim_C1_filter_order :
    (∀ (cfg : SelectionConfig) (spec : Option PathSpec) (rel name : String)
        (a : FileAttrs),
      fileFilterMod cfg spec rel name a = specFirstFail cfg spec rel name a) ∧
    (∀ (cfg : SelectionConfig) (spec : Option PathSpec) (base : List String)
        (cs : FSEntries) (n : String) (a : FileAttrs),
      (⟨base, n, a⟩ : FileRecord) ∈ filesPassMod cfg spec base cs ↔
        hasFileEntry n a cs = true ∧
          specFirstFail cfg spec (joinPath (base ++ [n])) n a = none) := by
  refine ⟨fileFilterMod_eq_specFirstFail, ?_⟩
  intro cfg spec base cs n a
  rw [mem_filesPassMod, fileFilterMod_eq_specFirstFail]

theorem fileFilterMod_none_facts (cfg : SelectionConfig) (spec : Option PathSpec)
    (rel name : String) (a : FileAttrs)
    (h : fileFilterMod cfg spec rel name a = none) :
    (∃ s, a.statSize = some s ∧ s ≤ cfg.maxBytes) ∧
      isProbablyBinary a.content = false ∧
      matchesGitignore spec rel = false ∧ (name == ".gitignore") = false := by
  rw [fileFilterMod_eq_specFirstFail] at h
  simp only [specFirstFail] at h
  split_ifs at h with h1 h2 h3 h4 h5 h6 <;> try exact Option.noConfusion h
  simp only [Bool.not_eq_true', Bool.not_eq_false] at h3 h4 h5 h6
  refine ⟨?_, ?_, ?_, ?_⟩
  · unfold specCheckSize at h3
    cases hS : a.statSize with
    | none => rw [hS] at h3; exact Bool.noConfusion h3
    | some s => rw [hS] at h3; exact ⟨s, rfl, of_decide_eq_true h3⟩
  · unfold specCheckText at h4
    simpa using h4
  · unfold specCheckIgnore at h5
    simpa using h5
  · unfold specCheckIdentity at h6
    simpa using h6

theorem mem_filesPassMod_facts (cfg : SelectionConfig) (spec : Option PathSpec)
    (base : List String) (cs : FSEntries) (r : FileRecord)
    (h : r ∈ filesPassMod cfg spec base cs) :
    r.dirs = base ∧
      fileFilterMod cfg spec (relString r) r.name r.attrs = none := by
  induction cs using filesPassMod.induct cfg spec base with
  | case1 => simp [filesPassMod] at h
  | case2 n2 a2 rest ih =>
      simp only [filesPassMod, List.mem_append] at h
      rcases h with h | h
      · split at h <;> simp_all [relString]
      · exact ih h
  | case3 d cs2 rest ih =>
      simp only [filesPassMod] at h
      exact ih h

theorem mem_dirsPassMod_facts (cfg : SelectionConfig) (spec : Option PathSpec)
    (r : FileRecord) (base : List String) (cs : FSEntries) :
    r ∈ dirsPassMod cfg spec base cs →
      ∃ ds, ds ≠ [] ∧ r.dirs = base ++ ds ∧ chainOk cfg spec base ds = true ∧
        fileFilterMod cfg spec (relString r) r.name r.attrs = none := by
  induction base, cs using dirsPassMod.induct cfg spec with
  | case1 base => intro h; simp [dirsPassMod] at h
  | case2 base n a2 rest ih =>
      intro h; simp only [dirsPassMod] at h; exact ih h
  | case3 base d cs2 rest ihIn ihRest =>
      intro h
      simp only [dirsPassMod, List.mem_append] at h
      rcases h with h | h
      · by_cases hk : keepDirMod cfg spec base d = true
        · rw [if_pos hk, List.mem_append] at h
          rcases h with h | h
          · obtain ⟨hd, hf⟩ := mem_filesPassMod_facts cfg spec (base ++ [d]) cs2 r h
            exact ⟨[d], by simp, hd, by simp [chainOk, hk], hf⟩
          · obtain ⟨ds, hne, hd, hck, hf⟩ := ihIn h
            refine ⟨d :: ds, by simp, by simpa using hd, ?_, hf⟩
            simp [chainOk, hk, hck]
        · rw [if_neg hk] at h; simp at h
      · exact ihRest h

theorem mem_iterFilesMod_facts (cfg : SelectionConfig) (spec : Option PathSpec)
    (rootChildren : FSEntries) (r : FileRecord)
    (h : r ∈ iterFilesMod cfg spec rootChildren) :
    chainOk cfg spec [] r.dirs = true ∧
      fileFilterMod cfg spec (relString r) r.name r.attrs = none := by
  rw [iterFilesMod, List.mem_append] at h
  rcases h with h | h
  · obtain ⟨hd, hf⟩ := mem_filesPassMod_facts cfg spec [] rootChildren r h
    exact ⟨by simp [hd, chainOk], hf⟩
  · obtain ⟨ds, _, hd, hck, hf⟩ := mem_dirsPassMod_facts cfg spec r [] rootChildren h
    simp only [List.nil_append] at hd
    exact ⟨hd ▸ hck, hf⟩

theorem mem_visitedDirsMod_facts (cfg : SelectionConfig) (spec : Option PathSpec)
    (p : List String) (base : List String) (cs : FSEntries) :
    p ∈ visitedDirsMod cfg spec base cs →
      ∃ ds, ds ≠ [] ∧ p = base ++ ds ∧ chainOk cfg spec base ds = true := by
  induction base, cs using visitedDirsMod.induct cfg spec with
  | case1 base => intro h; simp [visitedDirsMod] at h
  | case2 base n a2 rest ih =>
      intro h; simp only [visitedDirsMod] at h; exact ih h
  | case3 base d cs2 rest ihIn ihRest =>
      intro h
      simp only [visitedDirsMod, List.mem_append] at h
      rcases h with h | h
      · by_cases hk : keepDirMod cfg spec base d = true
        · rw [if_pos hk, List.mem_cons] at h
          rcases h with h | h
          · exact ⟨[d], by simp, h, by simp [chainOk, hk]⟩
          · obtain ⟨ds, hne, hd, hck⟩ := ihIn h
            refine ⟨d :: ds, by simp, by simpa using hd, ?_⟩
            simp [chainOk, hk, hck]
        · rw [if_neg hk] at h; simp at h
      · exact ihRest h

theorem chainOk_not_excluded (cfg : SelectionConfig) (spec : Option PathSpec) :
    ∀ (ds base : List String), chainOk cfg spec base ds = true →
      ∀ d ∈ ds, cfg.excludeDirs.contains d = false := by
  intro ds
  induction ds with
  | nil => intro base _ d hd; simp at hd
  | cons d0 ds ih =>
      intro base hck d hd
      rw [chainOk, Bool.and_eq_true] at hck
      rcases List.mem_cons.mp hd with rfl | hd
      · have := hck.1
        rw [keepDirMod, Bool.and_eq_true] at this
        simpa using this.2
      · exact ih (base ++ [d0]) hck.2 d hd

/-- Claim C3: the modularized walk never descends into a directory whose
name is in the excluded set: every directory it visits (beyond the root)
has an excluded-free component chain, every yielded file lies under no
excluded directory, and so does every file of the sorted list the
manifest is rendered from. -/
theorem claim_C3_excluded_dirs_pruned :
    ∀ (cfg : SelectionConfig) (spec : Option PathSpec) (rootChildren : FSEntries),
      ((walkVisitedMod cfg spec rootChildren).all
        (fun p => p.all (fun d => !(cfg.excludeDirs.contains d))) = true) ∧
      ((iterFilesMod cfg spec rootChildren).all
        (fun r => r.dirs.all (fun d => !(cfg.excludeDirs.contains d))) = true) ∧
      ((mainSelectedFiles cfg spec rootChildren).all
        (fun r => r.dirs.all (fun d => !(cfg.excludeDirs.contains d))) = true) := by
  intro cfg spec rootChildren
  have hIter : ∀ r ∈ iterFilesMod cfg spec rootChildren,
      (r.dirs.all (fun d => !(cfg.excludeDirs.contains d))) = true := by
    intro r hr
    obtain ⟨hck, _⟩ := mem_iterFilesMod_facts cfg spec rootChildren r hr
    rw [List.all_eq_true]
    intro d hd
    have hni := chainOk_not_excluded cfg spec r.dirs [] hck d hd
    simp only [Bool.not_eq_true']
    exact hni
  refine ⟨?_, ?_, ?_⟩
  · rw [List.all_eq_true]
    intro p hp
    rw [walkVisitedMod, List.mem_cons] at hp
    rcases hp with rfl | hp
    · simp
    · obtain ⟨ds, hne, hpd, hck⟩ := mem_visitedDirsMod_facts cfg spec p [] rootChildren hp
      rw [List.all_eq_true]
      intro d hd
      rw [hpd, List.nil_append] at hd
      have hni := chainOk_not_excluded cfg spec ds [] hck d hd
      simp only [Bool.not_eq_true']
      exact hni
  · rw [List.all_eq_true]; exact hIter
  · rw [List.all_eq_true]
    intro r hr
    have : r ∈ iterFilesMod cfg spec rootChildren := by
      have hperm := List.perm_insertionSort fileLe (iterFilesMod cfg spec rootChildren)
      exact hperm.mem_iff.mp hr
    exact hIter r this

/-- Claim C4: the binary detector returns true exactly when the first
8000 bytes contain a NUL byte or the file cannot be read, and every file
the modularized selector yields is readable with a NUL-free 8000-byte
sample, whatever the configuration (so whatever the extension). -/
theorem claim_C4_nul_byte_never_included :
    (∀ content : Option (List Nat),
      isProbablyBinary content = true ↔
        (content = none ∨ ∃ bs, content = some bs ∧ 0 ∈ bs.take 8000)) ∧
    (∀ (cfg : SelectionConfig) (spec : Option PathSpec) (rootChildren : FSEntries),
      (iterFilesMod cfg spec rootChildren).all
        (fun r => match r.attrs.content with
          | none => false
          | some bs => !((bs.take 8000).contains 0)) = true) := by
  constructor
  · intro content
    cases content with
    | none => simp [isProbablyBinary]
    | some bs => simp [isProbablyBinary]
  · intro cfg spec rootChildren
    rw [List.all_eq_true]
    intro r hr
    obtain ⟨_, hf⟩ := mem_iterFilesMod_facts cfg spec rootChildren r hr
    obtain ⟨_, hbin, _, _⟩ := fileFilterMod_none_facts cfg spec (relString r) r.name r.attrs hf
    cases hc : r.attrs.content with
    | none => rw [hc] at hbin; simp [isProbablyBinary] at hbin
    | some bs =>
        rw [hc] at hbin
        simp only [isProbablyBinary] at hbin
        simpa using hbin

/-- Claim C10: the modularized selector never yields a file whose
basename is .gitignore, at any depth and for any ruleset argument
(including an absent one); the flat entry point performs no such
exclusion: on a tree with a .gitignore at the root and one in a
subdirectory it yields both, while the modularized selector yields
neither. -/
theorem claim_C10_gitignore_identity_exclusion :
    (∀ (cfg : SelectionConfig) (spec : Option PathSpec) (rootChildren : FSEntries),
      (iterFilesMod cfg spec rootChildren).all
        (fun r => !(r.name == ".gitignore")) = true) ∧
    iterFilesFlat cfgPlain treeGitignore =
      [⟨[], ".gitignore", attrsHi⟩, ⟨["sub"], ".gitignore", attrsHi⟩] ∧
    iterFilesMod cfgPlain none treeGitignore = [] := by
  refine ⟨?_, by decide, by decide⟩
  intro cfg spec rootChildren
  rw [List.all_eq_true]
  intro r hr
  obtain ⟨_, hf⟩ := mem_iterFilesMod_facts cfg spec rootChildren r hr
  obtain ⟨_, _, _, hname⟩ := fileFilterMod_none_facts cfg spec (relString r) r.name r.attrs hf
  simp [hname]

/-- Claim C6: the ignore-rule matcher returns false unconditionally when
the ruleset is absent; loading returns an absent ruleset when the pattern
file is missing or unreadable; with such a ruleset the selector and the
walk behave exactly as with no ignore rules, and the ignore-rule step can
never be the rejecting one. -/
theorem claim_C6_ignore_rules_fail_open :
    (∀ rel : String, matchesGitignore none rel = false) ∧
    (∀ fromLines : List String → PathSpec,
      loadGitignore fromLines none = none ∧
      loadGitignore fromLines (some none) = none) ∧
    (∀ (fromLines : List String → PathSpec) (cfg : SelectionConfig)
        (rootChildren : FSEntries),
      iterFilesMod cfg (loadGitignore fromLines none) rootChildren =
          iterFilesMod cfg none rootChildren ∧
        iterFilesMod cfg (loadGitignore fromLines (some none)) rootChildren =
          iterFilesMod cfg none rootChildren ∧
        walkVisitedMod cfg (loadGitignore fromLines none) rootChildren =
          walkVisitedMod cfg none rootChildren ∧
        walkVisitedMod cfg (loadGitignore fromLines (some none)) rootChildren =
          walkVisitedMod cfg none rootChildren) ∧
    (∀ (cfg : SelectionConfig) (rel name : String) (a : FileAttrs),
      fileFilterMod cfg none rel name a ≠ some RejectStep.ignoreRule) := by
  refine ⟨fun _ => rfl, fun _ => ⟨rfl, rfl⟩, fun _ _ _ => ⟨rfl, rfl, rfl, rfl⟩, ?_⟩
  intro cfg rel name a h
  rw [fileFilterMod_eq_specFirstFail] at h
  simp only [specFirstFail] at h
  split_ifs at h with h1 h2 h3 h4 h5 h6 <;>
    simp_all [specCheckIgnore, matchesGitignore]

/-- Claim C5 concerns the call format_header(root, include_exts,
exclude_dirs, exclude_exts, gitignore_used=False) of cli.py line 121:
format_header (header.py lines 8-13) has no gitignore_used parameter, so
CPython binding raises TypeError (unexpected keyword argument) on every
run of the modularized entry point; assembling the header never succeeds,
against the claim that it always does. -/
theorem claim_C5_header_call_raises :
    bindPyArgs formatHeaderParamNames cliHeaderCall =
      Except.error (PyBindError.unexpectedKeyword "gitignore_used") := by
  rfl

/-- Claim C7: the size ceiling is inclusive: a file whose size exceeds
max_bytes is always rejected, a file whose size is at most max_bytes is
never rejected by the size check; concretely, an 11-byte file is excluded
by the run with a 10-byte ceiling and included by the run with an 11-byte
ceiling. -/
theorem claim_C7_size_boundary :
    (∀ (cfg : SelectionConfig) (spec : Option PathSpec) (rel name : String)
        (a : FileAttrs) (s : Nat), a.statSize = some s →
      (s > cfg.maxBytes → fileFilterMod cfg spec rel name a ≠ none) ∧
      (s ≤ cfg.maxBytes →
        fileFilterMod cfg spec rel name a ≠ some RejectStep.sizeCheck)) ∧
    iterFilesMod cfgMax10 none tree11 = [] ∧
    iterFilesMod cfgMax11 none tree11 = [⟨[], "a.txt", attrs11⟩] := by
  refine ⟨?_, by decide, by decide⟩
  intro cfg spec rel name a s hS
  constructor
  · intro hgt hnone
    obtain ⟨⟨s2, hS2, hle⟩, _⟩ := fileFilterMod_none_facts cfg spec rel name a hnone
    rw [hS] at hS2
    injection hS2 with h
    omega
  · intro hle
    rw [fileFilterMod_eq_specFirstFail]
    simp only [specFirstFail]
    split_ifs with h1 h2 h3 h4 h5 h6 <;> simp_all [specCheckSize, hS]

/-- Witness for claim C7 at the boundary: the 11-byte file against the
10-byte and the 11-byte ceilings. -/
theorem claim_C7_size_boundary_witness :
    attrs11.statSize = some 11 ∧ 11 > cfgMax10.maxBytes ∧
      fileFilterMod cfgMax10 none "a.txt" "a.txt" attrs11 ≠ none ∧
      11 ≤ cfgMax11.maxBytes ∧
      fileFilterMod cfgMax11 none "a.txt" "a.txt" attrs11 ≠
        some RejectStep.sizeCheck :=
  ⟨rfl, by decide,
    (claim_C7_size_boundary.1 cfgMax10 none "a.txt" "a.txt" attrs11 11 rfl).1
      (by decide),
    by decide,
    (claim_C7_size_boundary.1 cfgMax11 none "a.txt" "a.txt" attrs11 11 rfl).2
      (by decide)⟩

theorem sortFiles_map_relString (l : List FileRecord) :
    (sortFiles l).map relString = List.insertionSort strLe (l.map relString) := by
  refine List.eq_of_perm_of_sorted (r := strLe) ?_ ?_ ?_
  · exact ((List.perm_insertionSort fileLe l).map relString).trans
      (List.perm_insertionSort strLe (l.map relString)).symm
  · exact List.Pairwise.map relString (fun a b h => h)
      (List.sorted_insertionSort fileLe l)
  · exact List.sorted_insertionSort strLe (l.map relString)

/-- Claim C2: whatever order the walk yields the selected files in, the
manifest lines equal the lexicographic sort of the relative-path strings
of the selected files, the content blocks are emitted in exactly the
manifest order, and the manifest is sorted. -/
theorem claim_C2_deterministic_order :
    ∀ (cfg : SelectionConfig) (spec : Option PathSpec) (rootChildren : FSEntries)
      (l : List FileRecord),
      l.Perm (iterFilesMod cfg spec rootChildren) →
        manifestLines (sortFiles l) =
            List.insertionSort strLe
              ((iterFilesMod cfg spec rootChildren).map relString) ∧
          contentDelimLines (sortFiles l) =
            (manifestLines (sortFiles l)).map
              (fun s => "==== FILE: " ++ s ++ " ====") ∧
          List.Sorted strLe (manifestLines (sortFiles l)) := by
  intro cfg spec rootChildren l hperm
  refine ⟨?_, ?_, ?_⟩
  · rw [manifestLines, sortFiles_map_relString]
    refine List.eq_of_perm_of_sorted (r := strLe) ?_ ?_ ?_
    · exact (List.perm_insertionSort strLe (l.map relString)).trans
        ((hperm.map relString).trans
          (List.perm_insertionSort strLe _).symm)
    · exact List.sorted_insertionSort strLe (l.map relString)
    · exact List.sorted_insertionSort strLe _
  · rw [contentDelimLines, manifestLines, List.map_map]
    rfl
  · rw [manifestLines]
    exact List.Pairwise.map relString (fun a b h => h)
      (List.sorted_insertionSort fileLe l)

/-- Witness for claim C2: a listing holding b.txt then a.txt, with the
yielded list presented in the reversed order. -/
theorem claim_C2_deterministic_order_witness :
    ([recA, recB] : List FileRecord).Perm
        (iterFilesMod cfgPlain none treeTwoFiles) ∧
      (manifestLines (sortFiles [recA, recB]) =
          List.insertionSort strLe
            ((iterFilesMod cfgPlain none treeTwoFiles).map relString) ∧
        contentDelimLines (sortFiles [recA, recB]) =
          (manifestLines (sortFiles [recA, recB])).map
            (fun s => "==== FILE: " ++ s ++ " ====") ∧
        List.Sorted strLe (manifestLines (sortFiles [recA, recB]))) :=
  ⟨by decide,
    claim_C2_deterministic_order cfgPlain none treeTwoFiles [recA, recB]
      (by decide)⟩

/-- Claim C9: at every level the rendered entries are the listing sorted
with directories before files and case-insensitively inside each group;
a directory entry contributes its own line always, and its children
exactly when its name is not in the excluded set (no ignore rules, no
file-selection filters are consulted by the renderer); consequently the
tree can show entries the content section excludes, as with the binary
file b.bin, shown in the tree yet absent from the selection. -/
theorem claim_C9_tree_rendering :
    (∀ l : List FSEntry,
      (sortEntries l).Perm l ∧
        List.Pairwise (fun x y =>
          (entryIsFile x = true → entryIsFile y = true) ∧
            (entryIsFile x = entryIsFile y →
              (pyLower (entryName x)).data ≤ (pyLower (entryName y)).data))
          (sortEntries l)) ∧
    (∀ (excl : List String) (pfx n : String) (cs : FSEntries)
        (rest : List FSEntry),
      treeWalk excl pfx (FSEntry.dir n cs :: rest) =
        (pfx ++ (if rest.isEmpty then "└── " else "├── ") ++ n) ::
          ((if excl.contains n then []
            else
              treeWalk excl (pfx ++ (if rest.isEmpty then "    " else "│   "))
                (sortEntries cs.toList)) ++ treeWalk excl pfx rest)) ∧
    (buildDirTree "root" [] treeBinOnly = ["root", "└── b.bin"] ∧
      iterFilesMod cfgPlain none treeBinOnly = []) ∧
    (buildDirTree "root" ["node_modules"] treeVendor =
        ["root", "└── node_modules"] ∧
      buildDirTree "root" [] treeVendor =
        ["root", "└── node_modules", "    └── x.txt"]) := by
  refine ⟨?_, ?_, ⟨?_, by decide⟩, ⟨?_, ?_⟩⟩
  · intro l
    refine ⟨List.perm_insertionSort treeKeyLe l,
      (List.sorted_insertionSort treeKeyLe l).imp ?_⟩
    intro x y hxy
    rcases hxy with ⟨hx, hy⟩ | ⟨hxy, hle⟩
    · constructor
      · intro hxf; rw [hx] at hxf; exact Bool.noConfusion hxf
      · intro hEq; rw [hx, hy] at hEq; exact Bool.noConfusion hEq
    · exact ⟨fun hxf => hxy ▸ hxf, fun _ => hle⟩
  · intro excl pfx n cs rest
    rw [treeWalk]
    by_cases hc : excl.contains n = true <;> simp [hc, entryName]
  · simp [buildDirTree, treeBinOnly, sortEntries, FSEntries.toList,
      List.insertionSort, treeWalk, entryName]
  · simp [buildDirTree, treeVendor, sortEntries, FSEntries.toList,
      List.insertionSort, treeWalk, entryName]
  · simp [buildDirTree, treeVendor, sortEntries, FSEntries.toList,
      List.insertionSort, treeWalk, entryName]

theorem digitChar_mem (k : Nat) : digitChar k ∈ decimalDigits := by
  by_cases hk : k < 10
  · interval_cases k <;> decide
  · have hlen : decimalDigits.length ≤ k := by
      simp only [decimalDigits, List.length]
      omega
    rw [digitChar, List.getD_eq_default decimalDigits '0' hlen]
    decide

theorem natDigitsGo_mem :
    ∀ (fuel n : Nat) (c : Char), c ∈ natDigitsGo fuel n → c ∈ decimalDigits := by
  intro fuel
  induction fuel with
  | zero => intro n c h; simp [natDigitsGo] at h
  | succ fuel ih =>
      intro n c h
      rw [natDigitsGo] at h
      by_cases h10 : n < 10
      · rw [if_pos h10] at h
        rw [List.mem_singleton] at h
        exact h ▸ digitChar_mem n
      · rw [if_neg h10, List.mem_append] at h
        rcases h with h | h
        · exact ih (n / 10) c h
        · rw [List.mem_singleton] at h
          exact h ▸ digitChar_mem (n % 10)

theorem pyNatStr_mem (n : Nat) (c : Char) (h : c ∈ pyNatStr n) :
    c ∈ decimalDigits :=
  natDigitsGo_mem (n + 1) n c h

theorem natDigitsGo_fuel_eq :
    ∀ (n f1 f2 : Nat), n < f1 → n < f2 → natDigitsGo f1 n = natDigitsGo f2 n := by
  intro n
  induction n using Nat.strong_induction_on with
  | _ n ih =>
      intro f1 f2 h1 h2
      cases f1 with
      | zero => omega
      | succ f1 =>
          cases f2 with
          | zero => omega
          | succ f2 =>
              rw [natDigitsGo, natDigitsGo]
              by_cases h10 : n < 10
              · rw [if_pos h10, if_pos h10]
              · rw [if_neg h10, if_neg h10]
                have hdiv : n / 10 < n := Nat.div_lt_self (by omega) (by omega)
                have hb : 10 * (n / 10) ≤ n := Nat.mul_div_le n 10
                rw [ih (n / 10) hdiv f1 f2 (by omega) (by omega)]

theorem pyNatStr_unfold (n : Nat) :
    pyNatStr n =
      if n < 10 then [digitChar n] else pyNatStr (n / 10) ++ [digitChar (n % 10)] := by
  rw [pyNatStr, natDigitsGo]
  by_cases h10 : n < 10
  · rw [if_pos h10, if_pos h10]
  · rw [if_neg h10, if_neg h10]
    have hdiv : n / 10 < n := Nat.div_lt_self (by omega) (by omega)
    rw [natDigitsGo_fuel_eq (n / 10) n (n / 10 + 1) hdiv (by omega)]
    rfl

theorem pyNatStr_len_pos (n : Nat) : 1 ≤ (pyNatStr n).length := by
  rw [pyNatStr_unfold]
  split <;> simp

theorem pyNatStr_len_mono :
    ∀ (n i : Nat), i ≤ n → (pyNatStr i).length ≤ (pyNatStr n).length := by
  intro n
  induction n using Nat.strong_induction_on with
  | _ n ih =>
      intro i hin
      by_cases hi10 : i < 10
      · rw [pyNatStr_unfold i, if_pos hi10]
        have := pyNatStr_len_pos n
        simpa using this
      · have hn10 : ¬ n < 10 := by omega
        rw [pyNatStr_unfold i, if_neg hi10, pyNatStr_unfold n, if_neg hn10]
        have hdiv : n / 10 < n := Nat.div_lt_self (by omega) (by omega)
        have := ih (n / 10) hdiv (i / 10) (Nat.div_le_div_right hin)
        simp only [List.length_append, List.length]
        omega

theorem splitlinesGo_bf_prefix :
    ∀ (l acc rest : List Char), (∀ c ∈ l, pyIsLineBound c = false) →
      splitlinesGo false acc (l ++ rest) =
        splitlinesGo false (l.reverse ++ acc) rest := by
  intro l
  induction l with
  | nil => intro acc rest _; simp
  | cons c l ih =>
      intro acc rest hbf
      have hc : pyIsLineBound c = false := hbf c (List.mem_cons_self c l)
      rw [List.cons_append, splitlinesGo]
      rw [if_neg (by simp), if_neg (by simp [hc])]
      rw [ih (c :: acc) rest (fun c2 hc2 => hbf c2 (List.mem_cons_of_mem c hc2))]
      simp

theorem pySplitlines_intercalate :
    ∀ lines : List (List Char),
      (∀ l ∈ lines, ∀ c ∈ l, pyIsLineBound c = false) →
      lines.getLast? ≠ some [] →
      pySplitlines (List.intercalate ['\n'] lines) = lines := by
  intro lines
  induction lines with
  | nil => intro _ _; decide
  | cons l rest ih =>
      intro hbf hlast
      have hbl : ∀ c ∈ l, pyIsLineBound c = false :=
        hbf l (List.mem_cons_self l rest)
      cases rest with
      | nil =>
          have hlne : l ≠ [] := by
            intro he
            exact hlast (by simp [he])
          have h1 : List.intercalate ['\n'] [l] = l := by
            simp [List.intercalate]
          rw [h1, pySplitlines]
          have h2 := splitlinesGo_bf_prefix l [] [] hbl
          rw [List.append_nil] at h2
          rw [h2, splitlinesGo]
          simp [hlne]
      | cons l2 rest2 =>
          have hstep : List.intercalate ['\n'] (l :: l2 :: rest2) =
              l ++ '\n' :: List.intercalate ['\n'] (l2 :: rest2) := by
            simp [List.intercalate, List.intersperse]
          rw [hstep, pySplitlines, splitlinesGo_bf_prefix l [] _ hbl]
          rw [List.append_nil, splitlinesGo]
          rw [if_neg (by simp), if_pos (by decide)]
          have htail : pySplitlines (List.intercalate ['\n'] (l2 :: rest2)) =
              l2 :: rest2 := by
            refine ih (fun x hx => hbf x (List.mem_cons_of_mem l hx)) ?_
            intro hbad
            apply hlast
            rw [List.getLast?_cons_cons]
            exact hbad
          rw [show (decide ('\n' = '\r')) = false from by decide]
          rw [← pySplitlines, htail]
          simp

theorem splitNl_no_nl : ∀ l : List Char, '\n' ∉ l → splitNl l = [l] := by
  intro l
  induction l with
  | nil => intro _; rfl
  | cons c l ih =>
      intro hn
      have hc : ¬ c = '\n' := fun he => hn (he ▸ List.mem_cons_self c l)
      rw [splitNl, if_neg hc, ih (fun hm => hn (List.mem_cons_of_mem c hm))]

theorem splitNl_append :
    ∀ (l rest : List Char), '\n' ∉ l →
      splitNl (l ++ '\n' :: rest) = l :: splitNl rest := by
  intro l
  induction l with
  | nil =>
      intro rest _
      rw [List.nil_append, splitNl, if_pos rfl]
  | cons c l ih =>
      intro rest hn
      have hc : ¬ c = '\n' := fun he => hn (he ▸ List.mem_cons_self c l)
      rw [List.cons_append, splitNl, if_neg hc,
        ih rest (fun hm => hn (List.mem_cons_of_mem c hm))]

theorem splitNl_intercalate :
    ∀ fl : List (List Char), fl ≠ [] → (∀ l ∈ fl, '\n' ∉ l) →
      splitNl (List.intercalate ['\n'] fl) = fl := by
  intro fl
  induction fl with
  | nil => intro h _; exact absurd rfl h
  | cons l rest ih =>
      intro _ hnl
      have hl : '\n' ∉ l := hnl l (List.mem_cons_self l rest)
      cases rest with
      | nil =>
          have h1 : List.intercalate ['\n'] [l] = l := by
            simp [List.intercalate]
          rw [h1, splitNl_no_nl l hl]
      | cons l2 rest2 =>
          have hstep : List.intercalate ['\n'] (l :: l2 :: rest2) =
              l ++ '\n' :: List.intercalate ['\n'] (l2 :: rest2) := by
            simp [List.intercalate, List.intersperse]
          rw [hstep, splitNl_append l _ hl,
            ih (by simp) (fun x hx => hnl x (List.mem_cons_of_mem l hx))]

theorem stripNumTag_fmt :
    ∀ (xs line : List Char), '|' ∉ xs →
      stripNumTag (xs ++ [' ', '|', ' '] ++ line) = line := by
  intro xs
  induction xs with
  | nil =>
      intro line _
      rw [List.nil_append, stripNumTag]
      simp only [List.cons_append, List.nil_append]
      rw [List.dropWhile_cons, if_pos (by decide), List.dropWhile_cons,
        if_neg (by decide)]
      rfl
  | cons c xs ih =>
      intro line hb
      have hc : ¬ c = '|' := fun he => hb (he ▸ List.mem_cons_self c xs)
      have hcb : (!(c == '|')) = true := by simp [hc]
      have hxs : '|' ∉ xs := fun hm => hb (List.mem_cons_of_mem c hm)
      rw [stripNumTag]
      simp only [List.cons_append, List.append_assoc]
      rw [List.dropWhile_cons, if_pos hcb]
      have h2 := ih line hxs
      rw [stripNumTag] at h2
      simp only [List.append_assoc] at h2
      exact h2

theorem mem_pyRjust (i w : Nat) (c : Char) (h : c ∈ pyRjust (pyNatStr i) w) :
    c = ' ' ∨ c ∈ decimalDigits := by
  rw [pyRjust, List.mem_append] at h
  rcases h with h | h
  · exact Or.inl (List.eq_of_mem_replicate h)
  · exact Or.inr (pyNatStr_mem i c h)

/-- Claim C8 as stated is false: numbering the two-character text of an
a followed by a line feed yields the single line 1 | a, and stripping the
number prefixes gives back only the a: the trailing line feed of the
original text is not recovered. -/
theorem claim_C8_counterexample :
    addLineNumbers ['a', '\n'] 1 = ['1', ' ', '|', ' ', 'a'] ∧
      stripAllNumTags (addLineNumbers ['a', '\n'] 1) = ['a'] ∧
      stripAllNumTags (addLineNumbers ['a', '\n'] 1) ≠ ['a', '\n'] := by
  refine ⟨by decide, by decide, by decide⟩

/-- Claim C8 amended: for a text whose lines are free of line boundary
characters, joined by line feeds, with no trailing line terminator (the
last line is not empty), numbering produces one output line per input
line, each of the form prefix, separator, then the unchanged line
content, with the prefix right-justified to the width of the largest
line number; stripping the prefixes recovers the text exactly. On other
texts recovery returns the line-feed join of the split lines instead: a
trailing terminator is dropped and other terminators are normalized. -/
theorem claim_C8_line_numbering_amended :
    ∀ lines : List (List Char),
      (∀ l ∈ lines, ∀ c ∈ l, pyIsLineBound c = false) →
      lines.getLast? ≠ some [] →
      pySplitlines (List.intercalate ['\n'] lines) = lines ∧
      addLineNumbers (List.intercalate ['\n'] lines) 1 =
        List.intercalate ['\n']
          ((List.enumFrom 1 lines).map
            (fun p => pyRjust (pyNatStr p.1) (pyNatStr lines.length).length ++
              [' ', '|', ' '] ++ p.2)) ∧
      (∀ p ∈ List.enumFrom 1 lines,
        (pyRjust (pyNatStr p.1) (pyNatStr lines.length).length).length =
          (pyNatStr lines.length).length) ∧
      stripAllNumTags (addLineNumbers (List.intercalate ['\n'] lines) 1) =
        List.intercalate ['\n'] lines := by
  intro lines hbf hlast
  have hsplit := pySplitlines_intercalate lines hbf hlast
  have hw : 1 + lines.length - 1 = lines.length := by omega
  have hout : addLineNumbers (List.intercalate ['\n'] lines) 1 =
      List.intercalate ['\n']
        ((List.enumFrom 1 lines).map
          (fun p => pyRjust (pyNatStr p.1) (pyNatStr lines.length).length ++
            [' ', '|', ' '] ++ p.2)) := by
    simp only [addLineNumbers, hsplit, hw]
  refine ⟨hsplit, hout, ?_, ?_⟩
  · intro p hp
    obtain ⟨i, x⟩ := p
    obtain ⟨h1, h2, _⟩ := List.mem_enumFrom hp
    have hmono := pyNatStr_len_mono lines.length i (by omega)
    dsimp only
    rw [pyRjust, List.length_append, List.length_replicate]
    omega
  · rw [hout, stripAllNumTags]
    cases lines with
    | nil => decide
    | cons l0 rest0 =>
        have hflne :
            ((List.enumFrom 1 (l0 :: rest0)).map
              (fun p => pyRjust (pyNatStr p.1)
                  (pyNatStr (l0 :: rest0).length).length ++
                [' ', '|', ' '] ++ p.2)) ≠ [] := by
          simp [List.enumFrom]
        have hflnl : ∀ x ∈ (List.enumFrom 1 (l0 :: rest0)).map
            (fun p => pyRjust (pyNatStr p.1)
                (pyNatStr (l0 :: rest0).length).length ++
              [' ', '|', ' '] ++ p.2), '\n' ∉ x := by
          intro x hx
          rw [List.mem_map] at hx
          obtain ⟨p, hp, rfl⟩ := hx
          intro hmem
          rw [List.mem_append] at hmem
          rcases hmem with hmem | hmem
          · rw [List.mem_append] at hmem
            rcases hmem with hmem | hmem
            · rcases mem_pyRjust p.1 _ '\n' hmem with h | h
              · exact absurd h (by decide)
              · revert h; decide
            · revert hmem; decide
          · have hpl := List.snd_mem_of_mem_enumFrom hp
            have hbc := hbf p.2 hpl '\n' hmem
            exact absurd hbc (by decide)
        rw [splitNl_intercalate _ hflne hflnl, List.map_map]
        have hmapeq : ((List.enumFrom 1 (l0 :: rest0)).map
            (stripNumTag ∘ (fun p => pyRjust (pyNatStr p.1)
                (pyNatStr (l0 :: rest0).length).length ++
              [' ', '|', ' '] ++ p.2))) =
            (List.enumFrom 1 (l0 :: rest0)).map Prod.snd := by
          apply List.map_congr_left
          intro p hp
          have hbar : '|' ∉ pyRjust (pyNatStr p.1)
              (pyNatStr (l0 :: rest0).length).length := by
            intro hmem
            rcases mem_pyRjust p.1 _ '|' hmem with h | h
            · exact absurd h (by decide)
            · revert h; decide
          have := stripNumTag_fmt
            (pyRjust (pyNatStr p.1) (pyNatStr (l0 :: rest0).length).length)
            p.2 hbar
          simpa [List.append_assoc] using this
        rw [hmapeq, List.enumFrom_map_snd]

/-- Witness for the amended claim C8 at the two-line text of an a line
followed by a bc line. -/
theorem claim_C8_line_numbering_amended_witness :
    (∀ l ∈ [['a'], ['b', 'c']], ∀ c ∈ l, pyIsLineBound c = false) ∧
      ([['a'], ['b', 'c']] : List (List Char)).getLast? ≠ some [] ∧
      pySplitlines (List.intercalate ['\n'] [['a'], ['b', 'c']]) =
        [['a'], ['b', 'c']] ∧
      stripAllNumTags
          (addLineNumbers (List.intercalate ['\n'] [['a'], ['b', 'c']]) 1) =
        List.intercalate ['\n'] [['a'], ['b', 'c']] :=
  ⟨by decide, by decide,
    (claim_C8_line_numbering_amended [['a'], ['b', 'c']] (by decide)
      (by decide)).1,
    (claim_C8_line_numbering_amended [['a'], ['b', 'c']] (by decide)
      (by decide)).2.2.2⟩
